import Mathlib

set_option maxRecDepth 8000

/- Verification of replace_images.py.

   The script builds a lookup of image files found under a reference tree
   (website_image), then walks one level of subfolders under a target tree
   (assets/images) and, for each image file, tries four matching tiers in
   order (exact case-insensitive filename, normalized-stem equality, fuzzy
   stem similarity via difflib, substring containment of stems), backs the
   target up and overwrites it with the matched source, and prints a
   summary.

   This file is a shallow embedding of that logic: strings are lists of
   characters, the filesystem walk results are inputs, filesystem mutations
   are an explicit event trace, and difflib's SequenceMatcher ratio is
   modelled as an exact rational (numerator/denominator pair of naturals).
   All definitions are executable. -/

abbrev Str := List Char

/-- Model of Python str.lower restricted to ASCII: codepoints 65-90 map to
97-122, all other characters are unchanged. -/
def lowerChar (c : Char) : Char :=
  if 65 ≤ c.toNat ∧ c.toNat ≤ 90 then Char.ofNat (c.toNat + 32) else c

def lowerStr (s : Str) : Str := s.map lowerChar

/-- The ASCII whitespace characters stripped by str.strip and matched by the
regex class [_\s] (space, tab, newline, carriage return, vertical tab, form
feed). -/
def isSpaceChar (c : Char) : Bool :=
  c.toNat == 32 || c.toNat == 9 || c.toNat == 10 || c.toNat == 13 ||
    c.toNat == 11 || c.toNat == 12

def isUnderscoreSpace (c : Char) : Bool := c.toNat == 95 || isSpaceChar c

/-- Characters kept by the regex substitution re.sub with class [^a-z0-9\-]:
lowercase ASCII letters, digits, and the hyphen. -/
def isKeptChar (c : Char) : Bool :=
  decide (97 ≤ c.toNat ∧ c.toNat ≤ 122) || decide (48 ≤ c.toNat ∧ c.toNat ≤ 57) || c == '-'

def isDashChar (c : Char) : Bool := c == '-'

/-- Replace each maximal run of characters satisfying p by the single
character r; the flag records whether the previous character satisfied p.
re.sub with pattern [_\s]+ and replacement "-" is exactly this pass for
p = isUnderscoreSpace. re.sub with pattern -{2,} replaces each maximal run
of two or more hyphens by one hyphen; since a run of a single hyphen is
also mapped to a single hyphen, its output equals this pass for
p = isDashChar and r = the hyphen. -/
def collapseAux (p : Char → Bool) (r : Char) : Bool → Str → Str
  | _, [] => []
  | inRun, c :: cs =>
    if p c then
      if inRun then collapseAux p r true cs else r :: collapseAux p r true cs
    else c :: collapseAux p r false cs

def collapseRuns (p : Char → Bool) (r : Char) (s : Str) : Str := collapseAux p r false s

/-- No two adjacent characters of the string both satisfy p (the shape of
collapseRuns output, used to prove the normalizer idempotent). -/
def noRun (p : Char → Bool) : Str → Bool
  | [] => true
  | [_] => true
  | c :: d :: cs => !(p c && p d) && noRun p (d :: cs)

/-- Model of str.strip: drop leading and trailing whitespace. -/
def stripStr (s : Str) : Str :=
  ((s.dropWhile isSpaceChar).reverse.dropWhile isSpaceChar).reverse

/-- normalize_stem from replace_images.py: lowercase and strip, unify runs of
underscores and whitespace into a hyphen, keep only lowercase letters,
digits and hyphens, collapse repeated hyphens. -/
def normalize_stem (s : Str) : Str :=
  collapseRuns isDashChar '-'
    ((collapseRuns isUnderscoreSpace '-' (stripStr (lowerStr s))).filter isKeptChar)

/-- Model of os.path.splitext applied to a basename, returning the root
(stem): split at the last dot, unless every character before that dot is
itself a dot (so ".bashrc" keeps its whole name as the stem). -/
def stemOf (name : Str) : Str :=
  match name.reverse.findIdx? (fun c => c == '.') with
  | none => name
  | some j =>
    if (name.take (name.length - 1 - j)).any (fun c => !(c == '.')) then
      name.take (name.length - 1 - j)
    else name

def IMAGE_EXTS : List Str :=
  [".jpg".data, ".jpeg".data, ".png".data, ".gif".data, ".webp".data,
   ".svg".data, ".bmp".data, ".ico".data]

def strEndsWith (s suf : Str) : Bool := decide (s.drop (s.length - suf.length) = suf)

/-- Model of f.lower().endswith(IMAGE_EXTS). -/
def hasImageExt (name : Str) : Bool :=
  IMAGE_EXTS.any fun e => strEndsWith (lowerStr name) e

/-- Model of the Python substring test s in t. -/
def isSubOf (s t : Str) : Bool :=
  (List.range (t.length + 1)).any fun i => decide ((t.drop i).take s.length = s)

/-- Model of Python string comparison (lexicographic by code point). -/
def strLt : Str → Str → Bool
  | [], [] => false
  | [], _ :: _ => true
  | _ :: _, [] => false
  | x :: xs, y :: ys => if x.toNat = y.toNat then strLt xs ys else decide (x.toNat < y.toNat)

/-- Concatenation of the lists produced by f over a list (the order-preserving
flat map used to model the script's nested loops). -/
def concatMap {α β : Type} (f : α → List β) : List α → List β
  | [] => []
  | a :: l => f a ++ concatMap f l

/-- Length of the common prefix of two strings (the length of the matching
block starting at a given pair of positions). -/
def runLen : Str → Str → Nat
  | x :: xs, y :: ys => if x == y then runLen xs ys + 1 else 0
  | _, _ => 0

def flmCands (a b : Str) (alo ahi blo bhi : Nat) : List (Nat × Nat × Nat) :=
  concatMap
    (fun i =>
      (List.range' blo (bhi - blo)).map fun j =>
        (i, j, runLen ((a.drop i).take (ahi - i)) ((b.drop j).take (bhi - j))))
    (List.range' alo (ahi - alo))

def flmBest : (Nat × Nat × Nat) → List (Nat × Nat × Nat) → Nat × Nat × Nat
  | best, [] => best
  | best, c :: cs => flmBest (if best.2.2 < c.2.2 then c else best) cs

/-- Model of SequenceMatcher.find_longest_match on the regions a[alo:ahi] and
b[blo:bhi] with no junk (the script compares stems far shorter than the 200
characters at which autojunk activates): the longest matching block, ties
resolved to the block starting earliest in a and, among those, earliest in
b, which is what the candidate scan in increasing (i, j) order with a
strictly-greater update realizes. -/
def find_longest_match (a b : Str) (alo ahi blo bhi : Nat) : Nat × Nat × Nat :=
  flmBest (alo, blo, 0) (flmCands a b alo ahi blo bhi)

/-- Fuel-indexed model of the recursion inside get_matching_blocks: total
size of all matching blocks. Each recursive call strictly shrinks
(ahi - alo) + (bhi - blo), so fuel equal to that sum plus one (supplied by
matchedSize below) never runs out. -/
def matchedSizeF : Nat → Str → Str → Nat → Nat → Nat → Nat → Nat
  | 0, _, _, _, _, _, _ => 0
  | fuel + 1, a, b, alo, ahi, blo, bhi =>
    let r := find_longest_match a b alo ahi blo bhi
    if r.2.2 = 0 then 0
    else
      r.2.2 +
        (if alo < r.1 ∧ blo < r.2.1 then matchedSizeF fuel a b alo r.1 blo r.2.1 else 0) +
        (if r.1 + r.2.2 < ahi ∧ r.2.1 + r.2.2 < bhi then
            matchedSizeF fuel a b (r.1 + r.2.2) ahi (r.2.1 + r.2.2) bhi
          else 0)

/-- Total matched size M used by SequenceMatcher.ratio(a, b). -/
def matchedSize (a b : Str) : Nat :=
  matchedSizeF (a.length + b.length + 1) a b 0 a.length 0 b.length

/-- SequenceMatcher.ratio as an exact fraction (numerator, positive
denominator): 2M / (len a + len b), and 1.0 when both strings are empty.
The Python floats 2.0*M/T are modelled by the exact rationals they denote;
for the string lengths that arise in filenames the float comparisons agree
with the exact ones. -/
def ratioPair (a b : Str) : Nat × Nat :=
  if a.length + b.length = 0 then (1, 1)
  else (2 * matchedSize a b, a.length + b.length)

def ratioLt (p q : Nat × Nat) : Bool := decide (p.1 * q.2 < q.1 * p.2)

def ratioEq (p q : Nat × Nat) : Bool := decide (p.1 * q.2 = q.1 * p.2)

/-- The configurable fuzzy cutoff as an exact fraction num/den (the script's
FUZZY_CUTOFF = 0.78 is 78/100). -/
structure Cutoff where
  num : Nat
  den : Nat
deriving DecidableEq

/-- ratio p is greater than or equal to the cutoff. -/
def cutoffLe (c : Cutoff) (p : Nat × Nat) : Bool := decide (c.num * p.2 ≤ c.den * p.1)

/-- One step of heapq.nlargest(1, result) = max over (score, key) tuples: the
new candidate replaces the current best exactly when its (ratio, key) tuple
is strictly greater, keys compared as Python strings. -/
def gcmStep (word : Str) : Option Str → Str → Option Str
  | none, x => some x
  | some b, x =>
    if ratioLt (ratioPair b word) (ratioPair x word)
        || (ratioEq (ratioPair x word) (ratioPair b word) && strLt b x) then some x
    else some b

/-- Model of difflib.get_close_matches(word, possibilities, n=1, cutoff):
keep the possibilities whose ratio against word is at least the cutoff
(quick_ratio and real_quick_ratio are upper bounds of ratio, so the
short-circuit tests in difflib do not change this set), then take the
maximum (score, key) tuple, or none if no candidate survives. -/
def get_close_matches1 (word : Str) (possibilities : List Str) (c : Cutoff) : Option Str :=
  (possibilities.filter fun x => cutoffLe c (ratioPair x word)).foldl (gcmStep word) none

/-- The rational a ratio pair denotes. -/
def qOf (p : Nat × Nat) : ℚ := (p.1 : ℚ) / (p.2 : ℚ)

/-- The (score, key) tuple of candidate x is strictly greater than the one
of the current best b, for word w: the condition under which Python's max
replaces its running best. -/
def Beats (w x b : Str) : Prop :=
  ratioLt (ratioPair b w) (ratioPair x w) = true ∨
    (ratioEq (ratioPair x w) (ratioPair b w) = true ∧ strLt b x = true)

/-- One file yielded by os.walk over the reference tree: its full path and
its basename. -/
structure RefFile where
  path : Str
  base : Str
deriving DecidableEq

/-- The two lookup maps of the script, as insertion-ordered association
lists (Python dicts preserve insertion order). -/
structure Index where
  by_fullname : List (Str × Str)
  by_stem : List (Str × List Str)
deriving DecidableEq

def lookupFst {α : Type} (m : List (Str × α)) (k : Str) : Option α :=
  match m.find? fun e => decide (e.1 = k) with
  | some e => some e.2
  | none => none

/-- dict.setdefault(k, v) for the first-seen-wins by_fullname map. -/
def setdefaultFirst (m : List (Str × Str)) (k v : Str) : List (Str × Str) :=
  if m.any fun e => decide (e.1 = k) then m else m ++ [(k, v)]

/-- by_stem.setdefault(norm, []).append(path): append v to the bucket of k,
creating the bucket (at the end, preserving insertion order) if absent. -/
def appendBucket (m : List (Str × List Str)) (k v : Str) : List (Str × List Str) :=
  if m.any fun e => decide (e.1 = k) then
    m.map fun e => if e.1 = k then (e.1, e.2 ++ [v]) else e
  else m ++ [(k, [v])]

def indexInsert (idx : Index) (f : RefFile) : Index :=
  ⟨setdefaultFirst idx.by_fullname (lowerStr f.base) f.path,
   appendBucket idx.by_stem (normalize_stem (stemOf f.base)) f.path⟩

/-- The loop building by_fullname and by_stem over the reference files. -/
def buildIndex (files : List RefFile) : Index := files.foldl indexInsert ⟨[], []⟩

/-- The method tag recorded with a match. contain_match k is printed by the
script as partial followed by the key in parentheses. -/
inductive Method
  | exact_filename
  | stem_match
  | fuzzy_match (key : Str)
  | contain_match (key : Str)
deriving DecidableEq

def containPred (tnorm : Str) (e : Str × List Str) : Bool :=
  isSubOf tnorm e.1 || isSubOf e.1 tnorm

/-- The four matching tiers of the main loop, in order, stopping at the
first success: exact lowercased filename in by_fullname; normalized stem in
by_stem (first path of the bucket); fuzzy match of the normalized stem
against the by_stem keys; first by_stem entry whose key contains or is
contained in the normalized stem. -/
def matchTarget (idx : Index) (c : Cutoff) (fname : Str) : Option (Str × Method) :=
  match lookupFst idx.by_fullname (lowerStr fname) with
  | some p => some (p, Method.exact_filename)
  | none =>
    match lookupFst idx.by_stem (normalize_stem (stemOf fname)) with
    | some ps => some (ps.headD [], Method.stem_match)
    | none =>
      match get_close_matches1 (normalize_stem (stemOf fname)) (idx.by_stem.map Prod.fst) c with
      | some k => some (((lookupFst idx.by_stem k).getD []).headD [], Method.fuzzy_match k)
      | none =>
        match idx.by_stem.find? (containPred (normalize_stem (stemOf fname))) with
        | some e => some (e.2.headD [], Method.contain_match e.1)
        | none => none

/-- The script's configuration flags (DRY_RUN, MAKE_BACKUP, FUZZY_CUTOFF). -/
structure Config where
  DRY_RUN : Bool
  MAKE_BACKUP : Bool
  FUZZY_CUTOFF : Cutoff
deriving DecidableEq

/-- One entry of sorted(os.listdir(ASSETS_IMAGES)): either a non-directory
entry (skipped by the isdir test) or a subfolder with the entries of
sorted(os.listdir(subpath)), each flagged with its os.path.isfile result.
The lists are given in the sorted order the script iterates. -/
inductive RootEntry
  | plain (name : Str)
  | dir (name : Str) (entries : List (Str × Bool))
deriving DecidableEq

/-- One processed target file of the main loop: its subfolder, its filename,
and the match decision (none when all four tiers failed). -/
structure Step where
  sub : Str
  fname : Str
  result : Option (Str × Method)
deriving DecidableEq

/-- The (subfolder, filename) pairs the main loop processes: image files
(by extension, case-insensitive) that are regular files directly inside a
first-level subfolder. -/
def eligiblePairs (listing : List RootEntry) : List (Str × Str) :=
  concatMap
    (fun e =>
      match e with
      | RootEntry.plain _ => []
      | RootEntry.dir sub entries =>
        (entries.filter fun fe => fe.2 && hasImageExt fe.1).map fun fe => (sub, fe.1))
    listing

/-- The main loop: skip non-directories at the root, skip non-files and
non-images inside each subfolder, and match every remaining target. -/
def steps (idx : Index) (c : Cutoff) (listing : List RootEntry) : List Step :=
  concatMap
    (fun e =>
      match e with
      | RootEntry.plain _ => []
      | RootEntry.dir sub entries =>
        concatMap
          (fun fe =>
            if fe.2 = false then []
            else if hasImageExt fe.1 = false then []
            else [⟨sub, fe.1, matchTarget idx c fe.1⟩])
          entries)
    listing

/-- The path separator used by os.path.join (the script is configured with
Windows paths). Join never sees an absolute second component here, so it is
plain concatenation with a separator. -/
def sepChar : Char := '\\'

def pjoin (a b : Str) : Str := a ++ sepChar :: b

def targetPath (assets sub fname : Str) : Str := pjoin (pjoin assets sub) fname

/-- The run-scoped backup root assets/images/_backup_TIMESTAMP. -/
def backupRootOf (assets ts : Str) : Str := pjoin assets ("_backup_".data ++ ts)

def backupDir (bRoot sub : Str) : Str := pjoin bRoot sub

/-- Where the pre-replacement copy of a target goes: the target's path
relative to the target root, mirrored under the backup root. -/
def backupPath (bRoot sub fname : Str) : Str := pjoin (pjoin bRoot sub) fname

/-- A filesystem mutation performed by the run: os.makedirs(dir,
exist_ok=True), or shutil.copy2(src, dst) overwriting dst with the current
bytes (and metadata) of src. -/
inductive FsEvent
  | makedirs (dir : Str)
  | copy2 (src dst : Str)
deriving DecidableEq

/-- The mutations the loop performs for one processed target, in program
order: nothing when unmatched; otherwise the backup (directory creation and
copy of the target aside) when MAKE_BACKUP and not DRY_RUN, then the
overwrite of the target by the source when not DRY_RUN. -/
def stepEvents (cfg : Config) (assets bRoot : Str) (st : Step) : List FsEvent :=
  match st.result with
  | none => []
  | some pr =>
    (if cfg.MAKE_BACKUP && !cfg.DRY_RUN then
        [FsEvent.makedirs (backupDir bRoot st.sub),
         FsEvent.copy2 (targetPath assets st.sub st.fname) (backupPath bRoot st.sub st.fname)]
      else []) ++
    (if !cfg.DRY_RUN then [FsEvent.copy2 pr.1 (targetPath assets st.sub st.fname)] else [])

/-- Console output: the per-file line printed for each replacement (DRY: or
REPL: with target, source and method), and the final summary block with the
counts and itemized lists. -/
inductive ConsoleItem
  | fileLine (dry : Bool) (target src : Str) (m : Method)
  | summaryBlock (scanned : Nat) (repls : List (Str × Str × Method)) (unmatchedList : List Str)
deriving DecidableEq

structure RunResult where
  replacements : List (Str × Str × Method)
  unmatched : List Str
  events : List FsEvent
  console : List ConsoleItem
deriving DecidableEq

deriving instance DecidableEq for Except

/-- website_files: the os.walk results filtered to image extensions. -/
def websiteFilesOf (refWalk : List RefFile) : List RefFile :=
  refWalk.filter fun f => hasImageExt f.base

def runSteps (refWalk : List RefFile) (c : Cutoff) (listing : List RootEntry) : List Step :=
  steps (buildIndex (websiteFilesOf refWalk)) c listing

def replacementsOf (assets : Str) (sts : List Step) : List (Str × Str × Method) :=
  sts.filterMap fun st => st.result.map fun pr => (targetPath assets st.sub st.fname, pr.1, pr.2)

def unmatchedOf (assets : Str) (sts : List Step) : List Str :=
  sts.filterMap fun st =>
    match st.result with
    | none => some (targetPath assets st.sub st.fname)
    | some _ => none

def eventsOf (cfg : Config) (assets bRoot : Str) (sts : List Step) : List FsEvent :=
  concatMap (stepEvents cfg assets bRoot) sts

def perFileOf (dry : Bool) (assets : Str) (sts : List Step) : List ConsoleItem :=
  concatMap
    (fun st =>
      match st.result with
      | none => []
      | some pr => [ConsoleItem.fileLine dry (targetPath assets st.sub st.fname) pr.1 pr.2])
    sts

/-- The SystemExit message (the repr quoting of the path is elided). -/
def noImagesMsg (websitePath : Str) : Str :=
  "No image files found under ".data ++ websitePath ++ " (check path).".data

/-- The whole run. Except.error models raise SystemExit(msg), which exits
with a nonzero status; Except.ok models a successful exit. The reference
walk and the target listings are inputs; during a live run the loop
iterates snapshots taken by sorted(os.listdir(...)), and its mutations
(backup creation under the fresh backup root, overwrites of already
processed targets) never alter the reference index or a later listing, so
one snapshot serves the whole run. -/
def runScript (refWalk : List RefFile) (listing : List RootEntry) (cfg : Config)
    (websitePath assetsPath ts : Str) : Except Str RunResult :=
  if (websiteFilesOf refWalk).isEmpty then Except.error (noImagesMsg websitePath)
  else
    Except.ok
      ⟨replacementsOf assetsPath (runSteps refWalk cfg.FUZZY_CUTOFF listing),
       unmatchedOf assetsPath (runSteps refWalk cfg.FUZZY_CUTOFF listing),
       eventsOf cfg assetsPath (backupRootOf assetsPath ts)
         (runSteps refWalk cfg.FUZZY_CUTOFF listing),
       perFileOf cfg.DRY_RUN assetsPath (runSteps refWalk cfg.FUZZY_CUTOFF listing) ++
         [ConsoleItem.summaryBlock (websiteFilesOf refWalk).length
            (replacementsOf assetsPath (runSteps refWalk cfg.FUZZY_CUTOFF listing))
            (unmatchedOf assetsPath (runSteps refWalk cfg.FUZZY_CUTOFF listing))]⟩

/-- Interpretation of one event over file contents (β is the type of file
contents; a value also encodes absence if the caller chooses an Option
type): copy2 src dst sets dst to the current content of src. -/
def applyEvent {β : Type} (σ : Str → β) : FsEvent → Str → β
  | FsEvent.makedirs _ => σ
  | FsEvent.copy2 src dst => fun p => if p = dst then σ src else σ p

def applyEvents {β : Type} (σ : Str → β) : List FsEvent → Str → β
  | [] => σ
  | e :: es => applyEvents (applyEvent σ e) es

/-- The file an event overwrites, if any. -/
def writeDest : FsEvent → Option Str
  | FsEvent.makedirs _ => none
  | FsEvent.copy2 _ dst => some dst

/-- The directory an event creates, if any. -/
def madeDir : FsEvent → Option Str
  | FsEvent.makedirs d => some d
  | FsEvent.copy2 _ _ => none

/- Helper lemmas. -/

theorem find?_first {α : Type} (q : α → Bool) :
    ∀ (l : List α) (a : α), l.find? q = some a →
      q a = true ∧ ∃ pre post, l = pre ++ a :: post ∧ ∀ x ∈ pre, q x = false := by
  intro l
  induction l with
  | nil => intro a h; simp [List.find?] at h
  | cons x xs ih =>
    intro a h
    by_cases hx : q x = true
    · rw [List.find?_cons_of_pos _ hx] at h
      cases h
      exact ⟨hx, [], xs, rfl, by simp⟩
    · have hx' : q x = false := by simpa using hx
      rw [List.find?_cons_of_neg _ hx] at h
      obtain ⟨hqa, pre, post, rfl, hpre⟩ := ih a h
      refine ⟨hqa, x :: pre, post, rfl, ?_⟩
      intro y hy
      rcases List.mem_cons.mp hy with rfl | hy
      · exact hx'
      · exact hpre y hy

theorem mem_collapseAux (p : Char → Bool) (r : Char) :
    ∀ (l : Str) (f : Bool) (c : Char), c ∈ collapseAux p r f l → c = r ∨ c ∈ l := by
  intro l
  induction l with
  | nil =>
    intro f c h
    simp [collapseAux] at h
  | cons x xs ih =>
    intro f c h
    simp only [collapseAux] at h
    split at h
    · split at h
      · rcases ih true c h with rfl | hm
        · exact Or.inl rfl
        · exact Or.inr (List.mem_cons_of_mem _ hm)
      · rcases List.mem_cons.mp h with rfl | h'
        · exact Or.inl rfl
        · rcases ih true c h' with rfl | hm
          · exact Or.inl rfl
          · exact Or.inr (List.mem_cons_of_mem _ hm)
    · rcases List.mem_cons.mp h with rfl | h'
      · exact Or.inr (List.mem_cons_self _ _)
      · rcases ih false c h' with rfl | hm
        · exact Or.inl rfl
        · exact Or.inr (List.mem_cons_of_mem _ hm)

theorem collapseAux_eq_self (p : Char → Bool) (r : Char) :
    ∀ (l : Str) (f : Bool), (∀ c ∈ l, p c = false) → collapseAux p r f l = l := by
  intro l
  induction l with
  | nil =>
    intro f _
    rfl
  | cons x xs ih =>
    intro f h
    have hx : p x = false := h x (List.mem_cons_self _ _)
    simp [collapseAux, hx, ih false (fun c hc => h c (List.mem_cons_of_mem _ hc))]

theorem collapseAux_true_head (p : Char → Bool) (r : Char) :
    ∀ (l : Str) (c : Char), (collapseAux p r true l).head? = some c → p c = false := by
  intro l
  induction l with
  | nil =>
    intro c h
    simp [collapseAux] at h
  | cons x xs ih =>
    intro c h
    by_cases hx : p x
    · simp only [collapseAux, hx, if_true] at h
      exact ih c h
    · have hx' : p x = false := by simpa using hx
      simp only [collapseAux, hx', Bool.false_eq_true, if_false, List.head?_cons,
        Option.some.injEq] at h
      rw [← h]
      exact hx'

theorem noRun_tail (p : Char → Bool) (c : Char) (cs : Str) (h : noRun p (c :: cs) = true) :
    noRun p cs = true := by
  cases cs with
  | nil => rfl
  | cons d ds =>
    simp only [noRun, Bool.and_eq_true] at h
    exact h.2

theorem noRun_collapseAux (p : Char → Bool) (r : Char) :
    ∀ (l : Str) (f : Bool), noRun p (collapseAux p r f l) = true := by
  intro l
  induction l with
  | nil =>
    intro f
    rfl
  | cons x xs ih =>
    intro f
    by_cases hx : p x
    · cases f with
      | true => simpa [collapseAux, hx] using ih true
      | false =>
        simp only [collapseAux, hx, if_true]
        cases hout : collapseAux p r true xs with
        | nil => rfl
        | cons y ys =>
          have hy : p y = false := collapseAux_true_head p r xs y (by rw [hout]; rfl)
          have hrest : noRun p (y :: ys) = true := by
            rw [← hout]
            exact ih true
          simp [noRun, hy, hrest]
    · have hx' : p x = false := by simpa using hx
      simp only [collapseAux, hx', Bool.false_eq_true, if_false]
      cases hout : collapseAux p r false xs with
      | nil => rfl
      | cons y ys =>
        have hrest : noRun p (y :: ys) = true := by
          rw [← hout]
          exact ih false
        simp [noRun, hx', hrest]

theorem collapseAux_fix (p : Char → Bool) (r : Char) :
    ∀ l : Str, (∀ c ∈ l, p c = true → c = r) → noRun p l = true →
      collapseAux p r false l = l := by
  intro l
  induction l with
  | nil =>
    intro _ _
    rfl
  | cons x xs ih =>
    intro hall hnr
    by_cases hx : p x
    · have hxr : x = r := hall x (List.mem_cons_self _ _) hx
      simp only [collapseAux, hx, if_true, Bool.false_eq_true, if_false]
      cases xs with
      | nil => simp [collapseAux, hxr]
      | cons d ds =>
        have hd : p d = false := by
          simp only [noRun, Bool.and_eq_true, Bool.not_eq_true', Bool.and_eq_false_iff] at hnr
          rcases hnr.1 with h' | h'
          · rw [hx] at h'
            exact absurd h' (by simp)
          · exact h'
        have h1 : collapseAux p r true (d :: ds) = collapseAux p r false (d :: ds) := by
          simp [collapseAux, hd]
        rw [h1, ih (fun c hc hp => hall c (List.mem_cons_of_mem _ hc) hp)
          (noRun_tail p x _ hnr), hxr]
    · have hx' : p x = false := by simpa using hx
      simp only [collapseAux, hx', Bool.false_eq_true, if_false]
      rw [ih (fun c hc hp => hall c (List.mem_cons_of_mem _ hc) hp) (noRun_tail p x _ hnr)]

theorem map_self {α : Type} (g : α → α) :
    ∀ l : List α, (∀ c ∈ l, g c = c) → l.map g = l := by
  intro l
  induction l with
  | nil =>
    intro _
    rfl
  | cons x xs ih =>
    intro h
    simp [h x (List.mem_cons_self _ _), ih fun c hc => h c (List.mem_cons_of_mem _ hc)]

theorem dropWhile_self (q : Char → Bool) (l : Str) (h : ∀ c ∈ l, q c = false) :
    l.dropWhile q = l := by
  cases l with
  | nil => rfl
  | cons x xs => simp [List.dropWhile, h x (List.mem_cons_self _ _)]

theorem stripStr_self (l : Str) (h : ∀ c ∈ l, isSpaceChar c = false) : stripStr l = l := by
  unfold stripStr
  rw [dropWhile_self _ _ h, dropWhile_self, List.reverse_reverse]
  intro c hc
  exact h c (List.mem_reverse.mp hc)

theorem filter_self_of (q : Char → Bool) :
    ∀ l : Str, (∀ c ∈ l, q c = true) → l.filter q = l := by
  intro l
  induction l with
  | nil =>
    intro _
    rfl
  | cons x xs ih =>
    intro h
    simp [List.filter_cons, h x (List.mem_cons_self _ _),
      ih fun c hc => h c (List.mem_cons_of_mem _ hc)]

theorem kept_ranges {c : Char} (h : isKeptChar c = true) :
    97 ≤ c.toNat ∧ c.toNat ≤ 122 ∨ 48 ≤ c.toNat ∧ c.toNat ≤ 57 ∨ c.toNat = 45 := by
  simp only [isKeptChar, Bool.or_eq_true, decide_eq_true_eq, beq_iff_eq] at h
  rcases h with (h | h) | h
  · exact Or.inl h
  · exact Or.inr (Or.inl h)
  · subst h
    exact Or.inr (Or.inr rfl)

theorem kept_lowerChar {c : Char} (h : isKeptChar c = true) : lowerChar c = c := by
  have hn : ¬(65 ≤ c.toNat ∧ c.toNat ≤ 90) := by
    have := kept_ranges h
    omega
  unfold lowerChar
  rw [if_neg hn]

theorem kept_not_space {c : Char} (h : isKeptChar c = true) : isSpaceChar c = false := by
  have := kept_ranges h
  simp only [isSpaceChar, Bool.or_eq_false_iff, beq_eq_false_iff_ne, ne_eq]
  omega

theorem kept_not_us {c : Char} (h : isKeptChar c = true) : isUnderscoreSpace c = false := by
  have := kept_ranges h
  have hs := kept_not_space h
  simp only [isUnderscoreSpace, Bool.or_eq_false_iff, beq_eq_false_iff_ne, ne_eq]
  refine ⟨by omega, hs⟩

theorem normalize_mem_kept (s : Str) : ∀ c ∈ normalize_stem s, isKeptChar c = true := by
  intro c hc
  unfold normalize_stem collapseRuns at hc
  rcases mem_collapseAux _ _ _ _ _ hc with rfl | hm
  · decide
  · exact (List.mem_filter.mp hm).2

theorem normalize_noRun (s : Str) : noRun isDashChar (normalize_stem s) = true := by
  unfold normalize_stem collapseRuns
  exact noRun_collapseAux _ _ _ _

theorem normalize_stem_idem (x : Str) :
    normalize_stem (normalize_stem x) = normalize_stem x := by
  have hkept : ∀ c ∈ normalize_stem x, isKeptChar c = true := normalize_mem_kept x
  have h1 : lowerStr (normalize_stem x) = normalize_stem x :=
    map_self _ _ fun c hc => kept_lowerChar (hkept c hc)
  have h2 : stripStr (normalize_stem x) = normalize_stem x :=
    stripStr_self _ fun c hc => kept_not_space (hkept c hc)
  have h3 : collapseRuns isUnderscoreSpace '-' (normalize_stem x) = normalize_stem x :=
    collapseAux_eq_self _ _ _ _ fun c hc => kept_not_us (hkept c hc)
  have h4 : (normalize_stem x).filter isKeptChar = normalize_stem x :=
    filter_self_of _ _ hkept
  have h5 : collapseRuns isDashChar '-' (normalize_stem x) = normalize_stem x := by
    apply collapseAux_fix
    · intro c _ hdash
      simpa only [isDashChar, beq_iff_eq] using hdash
    · exact normalize_noRun x
  calc normalize_stem (normalize_stem x)
      = collapseRuns isDashChar '-'
          ((collapseRuns isUnderscoreSpace '-'
              (stripStr (lowerStr (normalize_stem x)))).filter isKeptChar) := rfl
    _ = normalize_stem x := by rw [h1, h2, h3, h4, h5]

theorem ratioPair_den_pos (a b : Str) : 0 < (ratioPair a b).2 := by
  unfold ratioPair
  split
  · exact Nat.one_pos
  · rename_i h
    dsimp only
    omega

theorem ratioLt_iff {p q : Nat × Nat} (hp : 0 < p.2) (hq : 0 < q.2) :
    ratioLt p q = true ↔ qOf p < qOf q := by
  unfold ratioLt qOf
  rw [decide_eq_true_eq,
    div_lt_div_iff₀ (by exact_mod_cast hp) (by exact_mod_cast hq)]
  norm_cast

theorem ratioEq_iff {p q : Nat × Nat} (hp : 0 < p.2) (hq : 0 < q.2) :
    ratioEq p q = true ↔ qOf p = qOf q := by
  unfold ratioEq qOf
  rw [decide_eq_true_eq,
    div_eq_div_iff (by positivity) (by positivity)]
  norm_cast

theorem strLt_irrefl : ∀ a : Str, strLt a a = false := by
  intro a
  induction a with
  | nil => rfl
  | cons x xs ih => simp [strLt, ih]

theorem strLt_trans : ∀ a b c : Str, strLt a b = true → strLt b c = true →
    strLt a c = true := by
  intro a
  induction a with
  | nil =>
    intro b c hab hbc
    cases b with
    | nil => simp [strLt] at hab
    | cons y ys =>
      cases c with
      | nil => simp [strLt] at hbc
      | cons z zs => rfl
  | cons x xs ih =>
    intro b c hab hbc
    cases b with
    | nil => simp [strLt] at hab
    | cons y ys =>
      cases c with
      | nil => simp [strLt] at hbc
      | cons z zs =>
        simp only [strLt] at hab hbc ⊢
        by_cases hxy : x.toNat = y.toNat
        · rw [if_pos hxy] at hab
          by_cases hyz : y.toNat = z.toNat
          · rw [if_pos hyz] at hbc
            rw [if_pos (hxy.trans hyz)]
            exact ih ys zs hab hbc
          · rw [if_neg hyz] at hbc
            have hlt : y.toNat < z.toNat := of_decide_eq_true hbc
            rw [if_neg (by omega)]
            exact decide_eq_true (by omega)
        · rw [if_neg hxy] at hab
          have hlt : x.toNat < y.toNat := of_decide_eq_true hab
          by_cases hyz : y.toNat = z.toNat
          · rw [if_neg (by omega)]
            exact decide_eq_true (by omega)
          · rw [if_neg hyz] at hbc
            have hlt2 : y.toNat < z.toNat := of_decide_eq_true hbc
            rw [if_neg (by omega)]
            exact decide_eq_true (by omega)

theorem beats_irrefl (w x : Str) : ¬ Beats w x x := by
  intro h
  rcases h with h | ⟨_, h2⟩
  · unfold ratioLt at h
    exact absurd (of_decide_eq_true h) (lt_irrefl _)
  · rw [strLt_irrefl] at h2
    exact Bool.false_ne_true h2

theorem beats_trans {w z y x : Str} (h1 : Beats w z y) (h2 : Beats w y x) : Beats w z x := by
  have hy := ratioPair_den_pos y w
  have hz := ratioPair_den_pos z w
  have hx := ratioPair_den_pos x w
  rcases h1 with h1 | ⟨h1e, h1s⟩ <;> rcases h2 with h2 | ⟨h2e, h2s⟩
  · exact Or.inl ((ratioLt_iff hx hz).mpr
      (lt_trans ((ratioLt_iff hx hy).mp h2) ((ratioLt_iff hy hz).mp h1)))
  · exact Or.inl ((ratioLt_iff hx hz).mpr
      (lt_of_eq_of_lt ((ratioEq_iff hy hx).mp h2e).symm ((ratioLt_iff hy hz).mp h1)))
  · exact Or.inl ((ratioLt_iff hx hz).mpr
      (lt_of_lt_of_eq ((ratioLt_iff hx hy).mp h2) ((ratioEq_iff hz hy).mp h1e).symm))
  · exact Or.inr ⟨(ratioEq_iff hz hx).mpr
      (((ratioEq_iff hz hy).mp h1e).trans ((ratioEq_iff hy hx).mp h2e)),
      strLt_trans x y z h2s h1s⟩

theorem gcmStep_pos (w b x : Str) (h : Beats w x b) : gcmStep w (some b) x = some x := by
  show (if (ratioLt (ratioPair b w) (ratioPair x w)
      || (ratioEq (ratioPair x w) (ratioPair b w) && strLt b x)) = true then some x
    else some b) = some x
  rw [if_pos]
  simp only [Bool.or_eq_true, Bool.and_eq_true]
  exact h

theorem gcmStep_neg (w b x : Str) (h : ¬ Beats w x b) : gcmStep w (some b) x = some b := by
  show (if (ratioLt (ratioPair b w) (ratioPair x w)
      || (ratioEq (ratioPair x w) (ratioPair b w) && strLt b x)) = true then some x
    else some b) = some b
  rw [if_neg]
  simp only [Bool.or_eq_true, Bool.and_eq_true]
  exact h

theorem gcmFold_ne_none (w : Str) : ∀ (m : List Str) (b : Str),
    m.foldl (gcmStep w) (some b) ≠ none := by
  intro m
  induction m with
  | nil =>
    intro b h
    exact Option.noConfusion h
  | cons x xs ih =>
    intro b
    simp only [List.foldl_cons]
    by_cases hc : Beats w x b
    · rw [gcmStep_pos w b x hc]
      exact ih x
    · rw [gcmStep_neg w b x hc]
      exact ih b

theorem gcmFold_spec (w : Str) : ∀ (m : List Str) (acc : Option Str) (k : Str),
    m.foldl (gcmStep w) acc = some k →
      (acc = some k ∨ k ∈ m) ∧
      (∀ b, acc = some b → k = b ∨ Beats w k b) ∧
      ∀ x ∈ m, ¬ Beats w x k := by
  intro m
  induction m with
  | nil =>
    intro acc k h
    simp only [List.foldl_nil] at h
    refine ⟨Or.inl h, ?_, by simp⟩
    intro b hb
    rw [h] at hb
    exact Or.inl (Option.some.inj hb)
  | cons x xs ih =>
    intro acc k h
    simp only [List.foldl_cons] at h
    obtain ⟨hmem, hacc, hrest⟩ := ih (gcmStep w acc x) k h
    cases acc with
    | none =>
      have hstep : gcmStep w none x = some x := rfl
      rw [hstep] at hmem hacc
      have hkx : k = x ∨ Beats w k x := hacc x rfl
      have hnotxk : ¬ Beats w x k := by
        rcases hkx with rfl | hb
        · exact beats_irrefl w k
        · intro hxk
          exact beats_irrefl w x (beats_trans hxk hb)
      refine ⟨?_, by simp, ?_⟩
      · rcases hmem with hx | hx
        · exact Or.inr (by rw [Option.some.inj hx]; exact List.mem_cons_self _ _)
        · exact Or.inr (List.mem_cons_of_mem _ hx)
      · intro y hy
        rcases List.mem_cons.mp hy with rfl | hy
        · exact hnotxk
        · exact hrest y hy
    | some b =>
      by_cases hxb : Beats w x b
      · rw [gcmStep_pos w b x hxb] at hmem hacc
        have hkx : k = x ∨ Beats w k x := hacc x rfl
        have hco : k = b ∨ Beats w k b := by
          rcases hkx with rfl | hb2
          · exact Or.inr hxb
          · exact Or.inr (beats_trans hb2 hxb)
        have hnotxk : ¬ Beats w x k := by
          rcases hkx with rfl | hb2
          · exact beats_irrefl w k
          · intro hxk
            exact beats_irrefl w x (beats_trans hxk hb2)
        refine ⟨?_, ?_, ?_⟩
        · rcases hmem with hx | hx
          · exact Or.inr (by rw [Option.some.inj hx]; exact List.mem_cons_self _ _)
          · exact Or.inr (List.mem_cons_of_mem _ hx)
        · intro b' hb'
          injection hb' with hbb
          subst hbb
          exact hco
        · intro y hy
          rcases List.mem_cons.mp hy with rfl | hy
          · exact hnotxk
          · exact hrest y hy
      · rw [gcmStep_neg w b x hxb] at hmem hacc
        have hco : k = b ∨ Beats w k b := hacc b rfl
        have hnotxk : ¬ Beats w x k := by
          rcases hco with rfl | hkb
          · exact hxb
          · intro hxk
            exact hxb (beats_trans hxk hkb)
        refine ⟨?_, ?_, ?_⟩
        · rcases hmem with hb2 | hk
          · exact Or.inl hb2
          · exact Or.inr (List.mem_cons_of_mem _ hk)
        · intro b' hb'
          injection hb' with hbb
          subst hbb
          exact hco
        · intro y hy
          rcases List.mem_cons.mp hy with rfl | hy
          · exact hnotxk
          · exact hrest y hy

theorem gcm_characterization (w : Str) (l : List Str) (c : Cutoff) :
    (∀ k, get_close_matches1 w l c = some k →
      k ∈ l ∧ cutoffLe c (ratioPair k w) = true ∧
      ∀ x ∈ l, cutoffLe c (ratioPair x w) = true →
        ratioLt (ratioPair k w) (ratioPair x w) = false ∧
        (ratioEq (ratioPair x w) (ratioPair k w) = true → strLt k x = false)) ∧
    (get_close_matches1 w l c = none → ∀ x ∈ l, cutoffLe c (ratioPair x w) = false) := by
  constructor
  · intro k hk
    unfold get_close_matches1 at hk
    obtain ⟨hmem, _, hdom⟩ := gcmFold_spec w _ none k hk
    have hkf : k ∈ l.filter fun x => cutoffLe c (ratioPair x w) := by
      rcases hmem with h | h
      · exact absurd h (by simp)
      · exact h
    have hkl := List.mem_filter.mp hkf
    refine ⟨hkl.1, hkl.2, ?_⟩
    intro x hx hcut
    have hxf : x ∈ l.filter fun y => cutoffLe c (ratioPair y w) :=
      List.mem_filter.mpr ⟨hx, hcut⟩
    have hnb := hdom x hxf
    unfold Beats at hnb
    push_neg at hnb
    refine ⟨by simpa using hnb.1, ?_⟩
    intro heq
    have := hnb.2 heq
    simpa using this
  · intro hnone x hx
    unfold get_close_matches1 at hnone
    by_contra hcut
    have hcut' : cutoffLe c (ratioPair x w) = true := by simpa using hcut
    have hxf : x ∈ l.filter fun y => cutoffLe c (ratioPair y w) :=
      List.mem_filter.mpr ⟨hx, hcut'⟩
    cases hf : l.filter (fun y => cutoffLe c (ratioPair y w)) with
    | nil =>
      rw [hf] at hxf
      simp at hxf
    | cons y ys =>
      rw [hf] at hnone
      simp only [List.foldl_cons] at hnone
      exact gcmFold_ne_none w ys y hnone

/- Claim theorems. -/

/-- C1: the matcher tries the four tiers in strict order and stops at the
first success. Whenever the lowercased target filename is a key of
by_fullname the method is exact_filename (regardless of the other tiers),
and whenever no exact hit exists but the normalized target stem is a key of
by_stem the method is stem_match, never falling through to the fuzzy or
containment tiers. -/
theorem exact_and_stem_precedence (idx : Index) (c : Cutoff) (fname : Str) :
    (∀ p, lookupFst idx.by_fullname (lowerStr fname) = some p →
        matchTarget idx c fname = some (p, Method.exact_filename)) ∧
    (lookupFst idx.by_fullname (lowerStr fname) = none →
      ∀ ps, lookupFst idx.by_stem (normalize_stem (stemOf fname)) = some ps →
        matchTarget idx c fname = some (ps.headD [], Method.stem_match)) := by
  constructor
  · intro p hp
    unfold matchTarget
    rw [hp]
  · intro h1 ps hps
    unfold matchTarget
    rw [h1, hps]

theorem exact_and_stem_precedence_witness :
    matchTarget (buildIndex [⟨"p1".data, "My Photo_01.JPG".data⟩]) ⟨78, 100⟩
        "my photo_01.jpg".data = some ("p1".data, Method.exact_filename) ∧
    matchTarget (buildIndex [⟨"p1".data, "My Photo_01.JPG".data⟩]) ⟨78, 100⟩
        "My_Photo 01.PNG".data = some (["p1".data].headD [], Method.stem_match) :=
  ⟨(exact_and_stem_precedence _ _ _).1 "p1".data (by decide),
   (exact_and_stem_precedence _ _ _).2 (by decide) ["p1".data] (by decide)⟩

theorem mem_concatMap {α β : Type} (f : α → List β) :
    ∀ (l : List α) (b : β), b ∈ concatMap f l ↔ ∃ a ∈ l, b ∈ f a := by
  intro l
  induction l with
  | nil =>
    intro b
    simp [concatMap]
  | cons x xs ih =>
    intro b
    simp only [concatMap, List.mem_append, ih, List.mem_cons]
    constructor
    · rintro (h | ⟨a, ha, hb⟩)
      · exact ⟨x, Or.inl rfl, h⟩
      · exact ⟨a, Or.inr ha, hb⟩
    · rintro ⟨a, rfl | ha, hb⟩
      · exact Or.inl hb
      · exact Or.inr ⟨a, ha, hb⟩

theorem concatMap_append {α β : Type} (f : α → List β) :
    ∀ (l₁ l₂ : List α), concatMap f (l₁ ++ l₂) = concatMap f l₁ ++ concatMap f l₂ := by
  intro l₁ l₂
  induction l₁ with
  | nil => rfl
  | cons x xs ih => simp [concatMap, ih]

theorem runScript_ok (refWalk : List RefFile) (listing : List RootEntry) (cfg : Config)
    (websitePath assetsPath ts : Str) (r : RunResult)
    (h : runScript refWalk listing cfg websitePath assetsPath ts = Except.ok r) :
    websiteFilesOf refWalk ≠ [] ∧
    r = ⟨replacementsOf assetsPath (runSteps refWalk cfg.FUZZY_CUTOFF listing),
         unmatchedOf assetsPath (runSteps refWalk cfg.FUZZY_CUTOFF listing),
         eventsOf cfg assetsPath (backupRootOf assetsPath ts)
           (runSteps refWalk cfg.FUZZY_CUTOFF listing),
         perFileOf cfg.DRY_RUN assetsPath (runSteps refWalk cfg.FUZZY_CUTOFF listing) ++
           [ConsoleItem.summaryBlock (websiteFilesOf refWalk).length
              (replacementsOf assetsPath (runSteps refWalk cfg.FUZZY_CUTOFF listing))
              (unmatchedOf assetsPath (runSteps refWalk cfg.FUZZY_CUTOFF listing))]⟩ := by
  unfold runScript at h
  split at h
  · exact absurd h (by simp)
  · rename_i hne
    refine ⟨by simpa [List.isEmpty_iff] using hne, ?_⟩
    injection h with h'
    exact h'.symm

theorem stepEvents_dry (mb : Bool) (c : Cutoff) (ap bR : Str) (st : Step) :
    stepEvents ⟨true, mb, c⟩ ap bR st = [] := by
  unfold stepEvents
  cases st.result <;> simp

theorem eventsOf_dry (mb : Bool) (c : Cutoff) (ap bR : Str) :
    ∀ sts : List Step, eventsOf ⟨true, mb, c⟩ ap bR sts = [] := by
  intro sts
  induction sts with
  | nil => rfl
  | cons st rest ih =>
    show stepEvents ⟨true, mb, c⟩ ap bR st ++ eventsOf ⟨true, mb, c⟩ ap bR rest = []
    rw [stepEvents_dry, ih]
    rfl

theorem perFileOf_cons (dry : Bool) (ap : Str) (st : Step) (rest : List Step) :
    perFileOf dry ap (st :: rest) =
      (match st.result with
        | none => ([] : List ConsoleItem)
        | some pr => [ConsoleItem.fileLine dry (targetPath ap st.sub st.fname) pr.1 pr.2]) ++
      perFileOf dry ap rest := rfl

theorem replacementsOf_cons (ap : Str) (st : Step) (rest : List Step) :
    replacementsOf ap (st :: rest) =
      (match st.result with
        | none => ([] : List (Str × Str × Method))
        | some pr => [(targetPath ap st.sub st.fname, pr.1, pr.2)]) ++
      replacementsOf ap rest := by
  cases hres : st.result <;>
    simp [replacementsOf, List.filterMap_cons, hres]

theorem perFileOf_map_flag (ap : Str) : ∀ sts : List Step,
    (perFileOf false ap sts).map
        (fun item =>
          match item with
          | ConsoleItem.fileLine _ t s m => ConsoleItem.fileLine true t s m
          | x => x) = perFileOf true ap sts := by
  intro sts
  induction sts with
  | nil => rfl
  | cons st rest ih =>
    rw [perFileOf_cons, perFileOf_cons, List.map_append, ih]
    cases st.result <;> rfl

theorem perFileOf_eq_map (dry : Bool) (ap : Str) : ∀ sts : List Step,
    perFileOf dry ap sts =
      (replacementsOf ap sts).map fun x => ConsoleItem.fileLine dry x.1 x.2.1 x.2.2 := by
  intro sts
  induction sts with
  | nil => rfl
  | cons st rest ih =>
    rw [perFileOf_cons, replacementsOf_cons, List.map_append, ih]
    cases st.result <;> rfl

theorem steps_inner (idx : Index) (c : Cutoff) (sub : Str) :
    ∀ entries : List (Str × Bool),
      concatMap
        (fun fe =>
          if fe.2 = false then []
          else if hasImageExt fe.1 = false then []
          else [(⟨sub, fe.1, matchTarget idx c fe.1⟩ : Step)])
        entries =
      ((entries.filter fun fe => fe.2 && hasImageExt fe.1).map fun fe => (sub, fe.1)).map
        fun q => (⟨q.1, q.2, matchTarget idx c q.2⟩ : Step) := by
  intro entries
  induction entries with
  | nil => rfl
  | cons fe rest ih =>
    cases hb : fe.2 with
    | false => simp [concatMap, List.filter_cons, hb, ih]
    | true =>
      cases hx : hasImageExt fe.1 with
      | false => simp [concatMap, List.filter_cons, hb, hx, ih]
      | true => simp [concatMap, List.filter_cons, hb, hx, ih]

theorem steps_eq (idx : Index) (c : Cutoff) : ∀ listing : List RootEntry,
    steps idx c listing =
      (eligiblePairs listing).map fun q => ⟨q.1, q.2, matchTarget idx c q.2⟩ := by
  intro listing
  induction listing with
  | nil => rfl
  | cons e rest ih =>
    cases e with
    | plain name =>
      show steps idx c rest = _
      rw [ih]
      rfl
    | dir sub entries =>
      show concatMap _ entries ++ steps idx c rest = _
      rw [ih, steps_inner idx c sub entries]
      show _ = ((entries.filter _).map _ ++ eligiblePairs rest).map _
      rw [List.map_append]

theorem runSteps_pair (refWalk : List RefFile) (c : Cutoff) (listing : List RootEntry)
    (st : Step) (hst : st ∈ runSteps refWalk c listing) :
    (st.sub, st.fname) ∈ eligiblePairs listing := by
  unfold runSteps at hst
  rw [steps_eq] at hst
  rcases List.mem_map.mp hst with ⟨q, hq, rfl⟩
  simpa using hq

theorem mem_replacements (ap : Str) : ∀ (sts : List Step) (x : Str × Str × Method),
    x ∈ replacementsOf ap sts → ∃ st ∈ sts, ∃ pr : Str × Method, st.result = some pr ∧
      x = (targetPath ap st.sub st.fname, pr.1, pr.2) := by
  intro sts x hx
  unfold replacementsOf at hx
  rcases List.mem_filterMap.mp hx with ⟨st, hst, hmap⟩
  cases hres : st.result with
  | none =>
    rw [hres] at hmap
    simp at hmap
  | some pr =>
    rw [hres] at hmap
    simp only [Option.map_some'] at hmap
    exact ⟨st, hst, pr, hres, (Option.some.inj hmap).symm⟩

theorem mem_unmatched (ap : Str) : ∀ (sts : List Step) (x : Str),
    x ∈ unmatchedOf ap sts → ∃ st ∈ sts, st.result = none ∧
      x = targetPath ap st.sub st.fname := by
  intro sts x hx
  unfold unmatchedOf at hx
  rcases List.mem_filterMap.mp hx with ⟨st, hst, hmap⟩
  cases hres : st.result with
  | none =>
    rw [hres] at hmap
    change some (targetPath ap st.sub st.fname) = some x at hmap
    exact ⟨st, hst, hres, (Option.some.inj hmap).symm⟩
  | some pr =>
    rw [hres] at hmap
    change (none : Option Str) = some x at hmap
    exact Option.noConfusion hmap

theorem mem_stepEvents (cfg : Config) (ap bR : Str) (st : Step) (e : FsEvent)
    (hin : e ∈ stepEvents cfg ap bR st) :
    ∃ pr : Str × Method, st.result = some pr ∧
      (e = FsEvent.makedirs (backupDir bR st.sub) ∨
       e = FsEvent.copy2 (targetPath ap st.sub st.fname) (backupPath bR st.sub st.fname) ∨
       e = FsEvent.copy2 pr.1 (targetPath ap st.sub st.fname)) := by
  unfold stepEvents at hin
  cases hres : st.result with
  | none =>
    rw [hres] at hin
    simp at hin
  | some pr =>
    rw [hres] at hin
    refine ⟨pr, rfl, ?_⟩
    rcases List.mem_append.mp hin with h | h
    · split at h
      · rcases List.mem_cons.mp h with rfl | h
        · exact Or.inl rfl
        · rcases List.mem_singleton.mp h with rfl
          exact Or.inr (Or.inl rfl)
      · simp at h
    · split at h
      · rcases List.mem_singleton.mp h with rfl
        exact Or.inr (Or.inr rfl)
      · simp at h

theorem stepEvents_none (cfg : Config) (ap bR : Str) (st : Step)
    (hres : st.result = none) : stepEvents cfg ap bR st = [] := by
  unfold stepEvents
  rw [hres]

theorem stepEvents_live (c : Cutoff) (ap bR : Str) (st : Step) (pr : Str × Method)
    (hres : st.result = some pr) :
    stepEvents ⟨false, true, c⟩ ap bR st =
      [FsEvent.makedirs (backupDir bR st.sub),
       FsEvent.copy2 (targetPath ap st.sub st.fname) (backupPath bR st.sub st.fname),
       FsEvent.copy2 pr.1 (targetPath ap st.sub st.fname)] := by
  unfold stepEvents
  rw [hres]
  rfl

theorem applyEvents_append {β : Type} :
    ∀ (es fs : List FsEvent) (σ : Str → β),
      applyEvents σ (es ++ fs) = applyEvents (applyEvents σ es) fs := by
  intro es
  induction es with
  | nil =>
    intro fs σ
    rfl
  | cons e es ih =>
    intro fs σ
    exact ih fs (applyEvent σ e)

theorem applyEvents_not_written {β : Type} :
    ∀ (evs : List FsEvent) (σ : Str → β) (x : Str),
      (∀ e ∈ evs, writeDest e ≠ some x) → applyEvents σ evs x = σ x := by
  intro evs
  induction evs with
  | nil =>
    intro σ x _
    rfl
  | cons e es ih =>
    intro σ x h
    show applyEvents (applyEvent σ e) es x = σ x
    rw [ih (applyEvent σ e) x fun e' he' => h e' (List.mem_cons_of_mem _ he')]
    cases e with
    | makedirs d => rfl
    | copy2 src dst =>
      have hne : ¬ x = dst := by
        intro hx
        exact h (FsEvent.copy2 src dst) (List.mem_cons_self _ _) (by subst hx; rfl)
      show (if x = dst then σ src else σ x) = σ x
      rw [if_neg hne]

theorem applyEvent_makedirs {β : Type} (σ : Str → β) (d : Str) :
    applyEvent σ (FsEvent.makedirs d) = σ := rfl

theorem applyEvent_copy2 {β : Type} (σ : Str → β) (src dst p : Str) :
    applyEvent σ (FsEvent.copy2 src dst) p = if p = dst then σ src else σ p := rfl

theorem applyEvents_step_at {β : Type} (σ : Str → β) (d t b s x : Str) :
    applyEvents σ [FsEvent.makedirs d, FsEvent.copy2 t b, FsEvent.copy2 s t] x =
      if x = t then (if s = b then σ t else σ s) else if x = b then σ t else σ x := by
  show applyEvent (applyEvent (applyEvent σ (FsEvent.makedirs d)) (FsEvent.copy2 t b))
      (FsEvent.copy2 s t) x = _
  rw [applyEvent_makedirs, applyEvent_copy2, applyEvent_copy2, applyEvent_copy2]

theorem eventsOf_not_written {β : Type} (c : Cutoff) (ap bR : Str) (l : List Step)
    (σ : Str → β) (x : Str)
    (hx : ∀ st ∈ l, x ≠ backupPath bR st.sub st.fname ∧ x ≠ targetPath ap st.sub st.fname) :
    applyEvents σ (eventsOf ⟨false, true, c⟩ ap bR l) x = σ x := by
  apply applyEvents_not_written
  intro e he hw
  rcases (mem_concatMap _ _ _).mp he with ⟨st, hst, hin⟩
  obtain ⟨pr, hres, hshape⟩ := mem_stepEvents _ _ _ _ _ hin
  rcases hshape with rfl | rfl | rfl
  · exact Option.noConfusion hw
  · exact (hx st hst).1 (Option.some.inj hw).symm
  · exact (hx st hst).2 (Option.some.inj hw).symm

theorem replay {β : Type} (c : Cutoff) (ap bR : Str) :
    ∀ (sts : List Step) (σ : Str → β),
      sts.Pairwise (fun s t =>
        targetPath ap s.sub s.fname ≠ targetPath ap t.sub t.fname ∧
        backupPath bR s.sub s.fname ≠ backupPath bR t.sub t.fname) →
      (∀ s ∈ sts, ∀ t ∈ sts,
        targetPath ap s.sub s.fname ≠ backupPath bR t.sub t.fname) →
      (∀ st ∈ sts, ∀ pr : Str × Method, st.result = some pr →
        ∀ t ∈ sts, pr.1 ≠ targetPath ap t.sub t.fname ∧
          pr.1 ≠ backupPath bR t.sub t.fname) →
      ∀ st ∈ sts, ∀ pr : Str × Method, st.result = some pr →
        applyEvents σ (eventsOf ⟨false, true, c⟩ ap bR sts)
            (backupPath bR st.sub st.fname) =
          σ (targetPath ap st.sub st.fname) ∧
        applyEvents σ (eventsOf ⟨false, true, c⟩ ap bR sts)
            (targetPath ap st.sub st.fname) =
          σ pr.1 := by
  intro sts
  induction sts with
  | nil =>
    intro σ _ _ _ st hst
    simp at hst
  | cons st0 rest ih =>
    intro σ hp htb hs st hst pr hpr
    obtain ⟨hR0, hpRest⟩ := List.pairwise_cons.mp hp
    have hev : eventsOf ⟨false, true, c⟩ ap bR (st0 :: rest) =
        stepEvents ⟨false, true, c⟩ ap bR st0 ++ eventsOf ⟨false, true, c⟩ ap bR rest := rfl
    have hmem0 : st0 ∈ st0 :: rest := List.mem_cons_self _ _
    rcases List.mem_cons.mp hst with rfl | hstR
    · -- st is the head step
      have hbt : backupPath bR st.sub st.fname ≠ targetPath ap st.sub st.fname :=
        fun h => htb st hmem0 st hmem0 h.symm
      have hsb : pr.1 ≠ backupPath bR st.sub st.fname :=
        (hs st hmem0 pr hpr st hmem0).2
      rw [hev, stepEvents_live c ap bR st pr hpr, applyEvents_append]
      constructor
      · rw [eventsOf_not_written c ap bR rest _ _ ?_]
        · rw [applyEvents_step_at, if_neg hbt, if_pos rfl]
        · intro t ht
          refine ⟨fun h => (hR0 t ht).2 h, fun h => htb t (List.mem_cons_of_mem _ ht) st
            hmem0 h.symm⟩
      · rw [eventsOf_not_written c ap bR rest _ _ ?_]
        · rw [applyEvents_step_at, if_pos rfl, if_neg hsb]
        · intro t ht
          refine ⟨fun h => htb st hmem0 t (List.mem_cons_of_mem _ ht) h,
            fun h => (hR0 t ht).1 h⟩
    · -- st is in the tail
      have hR0st := hR0 st hstR
      have hih := ih (applyEvents σ (stepEvents ⟨false, true, c⟩ ap bR st0)) hpRest
        (fun s hsm t htm => htb s (List.mem_cons_of_mem _ hsm) t (List.mem_cons_of_mem _ htm))
        (fun s hsm pr' hpr' t htm => hs s (List.mem_cons_of_mem _ hsm) pr' hpr' t
          (List.mem_cons_of_mem _ htm))
        st hstR pr hpr
      rw [hev, applyEvents_append]
      cases hres0 : st0.result with
      | none =>
        rw [stepEvents_none _ _ _ _ hres0] at hih ⊢
        exact hih
      | some pr0 =>
        rw [stepEvents_live c ap bR st0 pr0 hres0] at hih ⊢
        refine ⟨hih.1.trans ?_, hih.2.trans ?_⟩
        · rw [applyEvents_step_at,
            if_neg (fun h => (hR0st.1 : _ ≠ _) h.symm),
            if_neg (htb st (List.mem_cons_of_mem _ hstR) st0 hmem0)]
        · rw [applyEvents_step_at,
            if_neg ((hs st (List.mem_cons_of_mem _ hstR) pr hpr st0 hmem0).1),
            if_neg ((hs st (List.mem_cons_of_mem _ hstR) pr hpr st0 hmem0).2)]

/-- C2 (amended): in the fuzzy tier, reached when the exact and stem tiers
failed, the selected key is a key of by_stem whose similarity ratio to the
normalized target stem is greater than or equal to the cutoff (a ratio
exactly at the cutoff is accepted; when every key is strictly below the
cutoff the tier falls through to containment matching), and among accepted
keys it maximizes the (ratio, key) tuple: no accepted key has a strictly
greater ratio, and on ratio ties no accepted key is lexicographically
greater — Python's max over (score, key) tuples breaks ties toward the
lexicographically greatest key, not the first-encountered one. The chosen
source is the first path in the selected key's bucket. -/
theorem fuzzy_tier_characterization (idx : Index) (c : Cutoff) (fname : Str)
    (h1 : lookupFst idx.by_fullname (lowerStr fname) = none)
    (h2 : lookupFst idx.by_stem (normalize_stem (stemOf fname)) = none) :
    (∀ k, get_close_matches1 (normalize_stem (stemOf fname)) (idx.by_stem.map Prod.fst) c =
        some k →
      matchTarget idx c fname =
        some (((lookupFst idx.by_stem k).getD []).headD [], Method.fuzzy_match k) ∧
      k ∈ idx.by_stem.map Prod.fst ∧
      cutoffLe c (ratioPair k (normalize_stem (stemOf fname))) = true ∧
      ∀ x ∈ idx.by_stem.map Prod.fst,
        cutoffLe c (ratioPair x (normalize_stem (stemOf fname))) = true →
          ratioLt (ratioPair k (normalize_stem (stemOf fname)))
              (ratioPair x (normalize_stem (stemOf fname))) = false ∧
          (ratioEq (ratioPair x (normalize_stem (stemOf fname)))
              (ratioPair k (normalize_stem (stemOf fname))) = true → strLt k x = false)) ∧
    (get_close_matches1 (normalize_stem (stemOf fname)) (idx.by_stem.map Prod.fst) c =
        none →
      (∀ x ∈ idx.by_stem.map Prod.fst,
        cutoffLe c (ratioPair x (normalize_stem (stemOf fname))) = false) ∧
      ∀ sm, matchTarget idx c fname = some sm → ∀ key, sm.2 ≠ Method.fuzzy_match key) := by
  constructor
  · intro k hk
    obtain ⟨hmem, hcut, hdom⟩ :=
      (gcm_characterization (normalize_stem (stemOf fname)) _ c).1 k hk
    refine ⟨?_, hmem, hcut, hdom⟩
    unfold matchTarget
    rw [h1, h2, hk]
  · intro hnone
    refine ⟨(gcm_characterization (normalize_stem (stemOf fname)) _ c).2 hnone, ?_⟩
    intro sm hsm key
    unfold matchTarget at hsm
    rw [h1, h2, hnone] at hsm
    cases hfind : idx.by_stem.find? (containPred (normalize_stem (stemOf fname))) with
    | none =>
      rw [hfind] at hsm
      exact absurd hsm (by simp)
    | some e =>
      rw [hfind] at hsm
      injection hsm with h'
      rw [← h']
      simp

theorem fuzzy_tier_characterization_witness :
    lookupFst (buildIndex [⟨"p1".data, "ab.jpg".data⟩]).by_fullname
        (lowerStr "ac.png".data) = none ∧
    lookupFst (buildIndex [⟨"p1".data, "ab.jpg".data⟩]).by_stem
        (normalize_stem (stemOf "ac.png".data)) = none ∧
    get_close_matches1 (normalize_stem (stemOf "ac.png".data))
        ((buildIndex [⟨"p1".data, "ab.jpg".data⟩]).by_stem.map Prod.fst) ⟨1, 2⟩ =
      some "ab".data ∧
    matchTarget (buildIndex [⟨"p1".data, "ab.jpg".data⟩]) ⟨1, 2⟩ "ac.png".data =
      some (((lookupFst (buildIndex [⟨"p1".data, "ab.jpg".data⟩]).by_stem
            "ab".data).getD []).headD [], Method.fuzzy_match "ab".data) ∧
    cutoffLe ⟨1, 2⟩ (ratioPair "ab".data (normalize_stem (stemOf "ac.png".data))) = true :=
  ⟨by decide, by decide, by decide,
   ((fuzzy_tier_characterization (buildIndex [⟨"p1".data, "ab.jpg".data⟩]) ⟨1, 2⟩
        "ac.png".data (by decide) (by decide)).1 "ab".data (by decide)).1,
   ((fuzzy_tier_characterization (buildIndex [⟨"p1".data, "ab.jpg".data⟩]) ⟨1, 2⟩
        "ac.png".data (by decide) (by decide)).1 "ab".data (by decide)).2.2.1⟩

/-- C2 counterexample: with reference files aaaay.png then aaaaz.png and
target aaaax.png, both by_stem keys tie at ratio 8/10, which is at least
the default cutoff 78/100, and "aaaay" is the first-encountered key in the
index's iteration order, yet the matcher selects "aaaaz": the tie is broken
toward the lexicographically greatest key, so the claim's
first-encountered tie-break is false on the code. -/
theorem fuzzy_tiebreak_counterexample :
    (buildIndex [⟨"p1".data, "aaaay.png".data⟩,
        ⟨"p2".data, "aaaaz.png".data⟩]).by_stem.map Prod.fst =
      ["aaaay".data, "aaaaz".data] ∧
    ratioEq (ratioPair "aaaay".data "aaaax".data)
      (ratioPair "aaaaz".data "aaaax".data) = true ∧
    cutoffLe ⟨78, 100⟩ (ratioPair "aaaay".data "aaaax".data) = true ∧
    strLt "aaaay".data "aaaaz".data = true ∧
    lookupFst (buildIndex [⟨"p1".data, "aaaay.png".data⟩,
        ⟨"p2".data, "aaaaz.png".data⟩]).by_fullname (lowerStr "aaaax.png".data) = none ∧
    lookupFst (buildIndex [⟨"p1".data, "aaaay.png".data⟩,
        ⟨"p2".data, "aaaaz.png".data⟩]).by_stem
      (normalize_stem (stemOf "aaaax.png".data)) = none ∧
    matchTarget (buildIndex [⟨"p1".data, "aaaay.png".data⟩,
        ⟨"p2".data, "aaaaz.png".data⟩]) ⟨78, 100⟩ "aaaax.png".data =
      some ("p2".data, Method.fuzzy_match "aaaaz".data) := by
  decide

/-- C5: the containment tier, reached only when the exact, stem and fuzzy
tiers all failed, scans by_stem in index iteration order and selects the
first entry whose key contains or is contained in the normalized target
stem, tags it contain_match (printed as partial with that key) and takes
the first path of its bucket; every earlier entry fails the containment
test. If no entry passes, the target is unmatched. -/
theorem containment_first_key (idx : Index) (c : Cutoff) (fname : Str)
    (h1 : lookupFst idx.by_fullname (lowerStr fname) = none)
    (h2 : lookupFst idx.by_stem (normalize_stem (stemOf fname)) = none)
    (h3 : get_close_matches1 (normalize_stem (stemOf fname)) (idx.by_stem.map Prod.fst) c =
      none) :
    (∀ e, idx.by_stem.find? (containPred (normalize_stem (stemOf fname))) = some e →
        matchTarget idx c fname = some (e.2.headD [], Method.contain_match e.1) ∧
        containPred (normalize_stem (stemOf fname)) e = true ∧
        ∃ pre post, idx.by_stem = pre ++ e :: post ∧
          ∀ x ∈ pre, containPred (normalize_stem (stemOf fname)) x = false) ∧
    (idx.by_stem.find? (containPred (normalize_stem (stemOf fname))) = none →
      matchTarget idx c fname = none) := by
  constructor
  · intro e he
    obtain ⟨hq, pre, post, heq, hpre⟩ := find?_first _ _ _ he
    refine ⟨?_, hq, pre, post, heq, hpre⟩
    unfold matchTarget
    rw [h1, h2, h3, he]
  · intro hnone
    unfold matchTarget
    rw [h1, h2, h3, hnone]

theorem containment_first_key_witness :
    matchTarget (buildIndex [⟨"p1".data, "sunset-beach.jpg".data⟩]) ⟨78, 100⟩
        "beach.png".data =
      some ((("sunset-beach".data, ["p1".data]) : Str × List Str).2.headD [],
        Method.contain_match (("sunset-beach".data, ["p1".data]) : Str × List Str).1) :=
  ((containment_first_key (buildIndex [⟨"p1".data, "sunset-beach.jpg".data⟩]) ⟨78, 100⟩
        "beach.png".data (by decide) (by decide) (by decide)).1
      ("sunset-beach".data, ["p1".data]) (by decide)).1

/-- C7: if the reference walk yields no image files, the run aborts with the
fatal SystemExit message (nonzero exit status) independently of the target
tree, before reading it and before any mutation; otherwise the run
completes successfully no matter how many targets go unmatched. -/
theorem empty_reference_aborts (refWalk : List RefFile) (cfg : Config)
    (websitePath assetsPath ts : Str) :
    (websiteFilesOf refWalk = [] →
      ∀ listing, runScript refWalk listing cfg websitePath assetsPath ts =
        Except.error (noImagesMsg websitePath)) ∧
    (websiteFilesOf refWalk ≠ [] →
      ∀ listing, ∃ r, runScript refWalk listing cfg websitePath assetsPath ts =
        Except.ok r) := by
  constructor
  · intro h listing
    unfold runScript
    rw [h]
    rfl
  · intro h listing
    unfold runScript
    rw [if_neg]
    · exact ⟨_, rfl⟩
    · simp only [List.isEmpty_iff]
      exact h

theorem empty_reference_aborts_witness :
    runScript [] [RootEntry.dir "s".data [("x.png".data, true)]] ⟨false, true, ⟨78, 100⟩⟩
        "w".data "a".data "t".data = Except.error (noImagesMsg "w".data) ∧
    ∃ r, runScript [⟨"p1".data, "a.jpg".data⟩] [RootEntry.dir "s".data [("x.png".data, true)]]
        ⟨false, true, ⟨78, 100⟩⟩ "w".data "a".data "t".data = Except.ok r :=
  ⟨(empty_reference_aborts [] ⟨false, true, ⟨78, 100⟩⟩ "w".data "a".data "t".data).1 (by decide)
      [RootEntry.dir "s".data [("x.png".data, true)]],
   (empty_reference_aborts [⟨"p1".data, "a.jpg".data⟩] ⟨false, true, ⟨78, 100⟩⟩ "w".data
        "a".data "t".data).2 (by decide) [RootEntry.dir "s".data [("x.png".data, true)]]⟩

theorem buckets_nonempty_aux :
    ∀ (files : List RefFile) (idx : Index),
      (∀ e ∈ idx.by_stem, e.2 ≠ []) →
      ∀ e ∈ (files.foldl indexInsert idx).by_stem, e.2 ≠ [] := by
  intro files
  induction files with
  | nil =>
    intro idx h
    simpa using h
  | cons f fs ih =>
    intro idx h
    refine ih (indexInsert idx f) ?_
    intro e he
    unfold indexInsert appendBucket at he
    dsimp only at he
    split at he
    · rcases List.mem_map.mp he with ⟨e', he', rfl⟩
      split
      · simp
      · exact h e' he'
    · rcases List.mem_append.mp he with h' | h'
      · exact h e h'
      · rcases List.mem_singleton.mp h' with rfl
        simp

/-- C9: every bucket of by_stem is a non-empty list (each key is created
together with its first appended path and buckets only grow), so taking
the first element of a bucket in the stem, fuzzy and containment tiers
always succeeds. -/
theorem stem_buckets_nonempty (files : List RefFile) :
    ∀ e ∈ (buildIndex files).by_stem, e.2 ≠ [] ∧ e.2.head? = some (e.2.headD []) := by
  intro e he
  have h := buckets_nonempty_aux files ⟨[], []⟩ (by simp) e he
  refine ⟨h, ?_⟩
  cases hb : e.2 with
  | nil => exact absurd hb h
  | cons a l => simp

/-- C3: in a live run with backups enabled, for every replaced target the
backup copy of the target's pre-replacement content is written — at the
path mirroring the target's location relative to the target root, under
the backup root — strictly before the target is overwritten, and at the
end of the run, for any initial contents, the backup path holds the
target's original content while the target holds the matched source's
content. The separation hypotheses record that distinct files have
distinct paths: target paths and backup paths are pairwise distinct and
disjoint from each other, and the matched sources (reference-tree files)
lie outside both, which is how the script's distinct tree roots and fresh
timestamped backup directory behave. -/
theorem backup_before_overwrite_fidelity {β : Type} (refWalk : List RefFile)
    (listing : List RootEntry) (c : Cutoff) (websitePath assetsPath ts : Str)
    (r : RunResult) (σ : Str → β)
    (hr : runScript refWalk listing ⟨false, true, c⟩ websitePath assetsPath ts =
      Except.ok r)
    (hp : (runSteps refWalk c listing).Pairwise fun s t =>
      targetPath assetsPath s.sub s.fname ≠ targetPath assetsPath t.sub t.fname ∧
      backupPath (backupRootOf assetsPath ts) s.sub s.fname ≠
        backupPath (backupRootOf assetsPath ts) t.sub t.fname)
    (htb : ∀ s ∈ runSteps refWalk c listing, ∀ t ∈ runSteps refWalk c listing,
      targetPath assetsPath s.sub s.fname ≠
        backupPath (backupRootOf assetsPath ts) t.sub t.fname)
    (hs : ∀ st ∈ runSteps refWalk c listing, ∀ pr : Str × Method, st.result = some pr →
      ∀ t ∈ runSteps refWalk c listing,
        pr.1 ≠ targetPath assetsPath t.sub t.fname ∧
        pr.1 ≠ backupPath (backupRootOf assetsPath ts) t.sub t.fname) :
    ∀ st ∈ runSteps refWalk c listing, ∀ pr : Str × Method, st.result = some pr →
      (∃ l₁ l₂ l₃, r.events =
        l₁ ++ FsEvent.copy2 (targetPath assetsPath st.sub st.fname)
            (backupPath (backupRootOf assetsPath ts) st.sub st.fname) ::
          (l₂ ++ FsEvent.copy2 pr.1 (targetPath assetsPath st.sub st.fname) :: l₃)) ∧
      applyEvents σ r.events (backupPath (backupRootOf assetsPath ts) st.sub st.fname) =
        σ (targetPath assetsPath st.sub st.fname) ∧
      applyEvents σ r.events (targetPath assetsPath st.sub st.fname) = σ pr.1 := by
  obtain ⟨-, h1⟩ := runScript_ok _ _ _ _ _ _ _ hr
  subst h1
  dsimp only
  intro st hst pr hpr
  have hcontent := replay c assetsPath (backupRootOf assetsPath ts) _ σ hp htb hs st hst
    pr hpr
  refine ⟨?_, hcontent.1, hcontent.2⟩
  obtain ⟨pre, post, hsplit⟩ := List.append_of_mem hst
  rw [hsplit]
  refine ⟨eventsOf ⟨false, true, c⟩ assetsPath (backupRootOf assetsPath ts) pre ++
    [FsEvent.makedirs (backupDir (backupRootOf assetsPath ts) st.sub)], [],
    eventsOf ⟨false, true, c⟩ assetsPath (backupRootOf assetsPath ts) post, ?_⟩
  show concatMap _ (pre ++ st :: post) = _
  rw [concatMap_append]
  show eventsOf ⟨false, true, c⟩ assetsPath (backupRootOf assetsPath ts) pre ++
    (stepEvents ⟨false, true, c⟩ assetsPath (backupRootOf assetsPath ts) st ++
      eventsOf ⟨false, true, c⟩ assetsPath (backupRootOf assetsPath ts) post) = _
  rw [stepEvents_live c assetsPath (backupRootOf assetsPath ts) st pr hpr]
  simp [List.append_assoc]

theorem backup_before_overwrite_fidelity_witness :
    (∃ l₁ l₂ l₃,
      ([FsEvent.makedirs (backupDir (backupRootOf "a".data "t".data) "s".data),
        FsEvent.copy2 (targetPath "a".data "s".data "a.jpg".data)
          (backupPath (backupRootOf "a".data "t".data) "s".data "a.jpg".data),
        FsEvent.copy2 "p1".data (targetPath "a".data "s".data "a.jpg".data)] :
          List FsEvent) =
        l₁ ++ FsEvent.copy2 (targetPath "a".data "s".data "a.jpg".data)
            (backupPath (backupRootOf "a".data "t".data) "s".data "a.jpg".data) ::
          (l₂ ++ FsEvent.copy2 "p1".data (targetPath "a".data "s".data "a.jpg".data) ::
            l₃)) ∧
    applyEvents (fun p => p.length)
        [FsEvent.makedirs (backupDir (backupRootOf "a".data "t".data) "s".data),
         FsEvent.copy2 (targetPath "a".data "s".data "a.jpg".data)
           (backupPath (backupRootOf "a".data "t".data) "s".data "a.jpg".data),
         FsEvent.copy2 "p1".data (targetPath "a".data "s".data "a.jpg".data)]
        (backupPath (backupRootOf "a".data "t".data) "s".data "a.jpg".data) =
      (fun p : Str => p.length) (targetPath "a".data "s".data "a.jpg".data) ∧
    applyEvents (fun p => p.length)
        [FsEvent.makedirs (backupDir (backupRootOf "a".data "t".data) "s".data),
         FsEvent.copy2 (targetPath "a".data "s".data "a.jpg".data)
           (backupPath (backupRootOf "a".data "t".data) "s".data "a.jpg".data),
         FsEvent.copy2 "p1".data (targetPath "a".data "s".data "a.jpg".data)]
        (targetPath "a".data "s".data "a.jpg".data) =
      (fun p : Str => p.length) "p1".data :=
  backup_before_overwrite_fidelity [⟨"p1".data, "a.jpg".data⟩]
    [RootEntry.dir "s".data [("a.jpg".data, true)]] ⟨78, 100⟩ "w".data "a".data "t".data
    ⟨[(targetPath "a".data "s".data "a.jpg".data, "p1".data, Method.exact_filename)], [],
     [FsEvent.makedirs (backupDir (backupRootOf "a".data "t".data) "s".data),
      FsEvent.copy2 (targetPath "a".data "s".data "a.jpg".data)
        (backupPath (backupRootOf "a".data "t".data) "s".data "a.jpg".data),
      FsEvent.copy2 "p1".data (targetPath "a".data "s".data "a.jpg".data)],
     [ConsoleItem.fileLine false (targetPath "a".data "s".data "a.jpg".data) "p1".data
        Method.exact_filename,
      ConsoleItem.summaryBlock 1
        [(targetPath "a".data "s".data "a.jpg".data, "p1".data, Method.exact_filename)]
        []]⟩
    (fun p => p.length) (by decide) (by decide) (by decide) (by decide)
    ⟨"s".data, "a.jpg".data, some ("p1".data, Method.exact_filename)⟩ (by decide)
    ("p1".data, Method.exact_filename) (by decide)

/-- C4: with the dry-run flag enabled the run performs no filesystem
mutation (no file under the target tree or backup root is created,
modified or deleted), and the sequence of (target, source, method) matches
recorded and printed is identical to the one the live run over the same
input produces (per-file lines differ only in the DRY versus REPL
prefix). -/
theorem dry_run_no_mutation_same_matches (refWalk : List RefFile)
    (listing : List RootEntry) (mb : Bool) (c : Cutoff)
    (websitePath assetsPath ts : Str) (rDry rLive : RunResult)
    (hd : runScript refWalk listing ⟨true, mb, c⟩ websitePath assetsPath ts =
      Except.ok rDry)
    (hl : runScript refWalk listing ⟨false, mb, c⟩ websitePath assetsPath ts =
      Except.ok rLive) :
    rDry.events = [] ∧ rDry.replacements = rLive.replacements ∧
      rDry.unmatched = rLive.unmatched ∧
      rDry.console = rLive.console.map fun item =>
        match item with
        | ConsoleItem.fileLine _ t s m => ConsoleItem.fileLine true t s m
        | x => x := by
  obtain ⟨-, h1⟩ := runScript_ok _ _ _ _ _ _ _ hd
  obtain ⟨-, h2⟩ := runScript_ok _ _ _ _ _ _ _ hl
  subst h1 h2
  refine ⟨eventsOf_dry mb c _ _ _, rfl, rfl, ?_⟩
  dsimp only
  rw [List.map_append, perFileOf_map_flag]
  rfl

theorem dry_run_no_mutation_same_matches_witness :
    (⟨[(targetPath "a".data "s".data "a.jpg".data, "p1".data, Method.exact_filename)], [],
        [],
        [ConsoleItem.fileLine true (targetPath "a".data "s".data "a.jpg".data) "p1".data
           Method.exact_filename,
         ConsoleItem.summaryBlock 1
           [(targetPath "a".data "s".data "a.jpg".data, "p1".data, Method.exact_filename)]
           []]⟩ : RunResult).events = [] ∧
    ([(targetPath "a".data "s".data "a.jpg".data, "p1".data, Method.exact_filename)] :
        List (Str × Str × Method)) =
      [(targetPath "a".data "s".data "a.jpg".data, "p1".data, Method.exact_filename)] ∧
    ([] : List Str) = [] ∧
    ([ConsoleItem.fileLine true (targetPath "a".data "s".data "a.jpg".data) "p1".data
        Method.exact_filename,
      ConsoleItem.summaryBlock 1
        [(targetPath "a".data "s".data "a.jpg".data, "p1".data, Method.exact_filename)]
        []] : List ConsoleItem) =
      ([ConsoleItem.fileLine false (targetPath "a".data "s".data "a.jpg".data) "p1".data
          Method.exact_filename,
        ConsoleItem.summaryBlock 1
          [(targetPath "a".data "s".data "a.jpg".data, "p1".data, Method.exact_filename)]
          []] : List ConsoleItem).map fun item =>
        match item with
        | ConsoleItem.fileLine _ t s m => ConsoleItem.fileLine true t s m
        | x => x :=
  dry_run_no_mutation_same_matches [⟨"p1".data, "a.jpg".data⟩]
    [RootEntry.dir "s".data [("a.jpg".data, true)]] true ⟨78, 100⟩ "w".data "a".data "t".data
    ⟨[(targetPath "a".data "s".data "a.jpg".data, "p1".data, Method.exact_filename)], [],
     [],
     [ConsoleItem.fileLine true (targetPath "a".data "s".data "a.jpg".data) "p1".data
        Method.exact_filename,
      ConsoleItem.summaryBlock 1
        [(targetPath "a".data "s".data "a.jpg".data, "p1".data, Method.exact_filename)]
        []]⟩
    ⟨[(targetPath "a".data "s".data "a.jpg".data, "p1".data, Method.exact_filename)], [],
     [FsEvent.makedirs (backupDir (backupRootOf "a".data "t".data) "s".data),
      FsEvent.copy2 (targetPath "a".data "s".data "a.jpg".data)
        (backupPath (backupRootOf "a".data "t".data) "s".data "a.jpg".data),
      FsEvent.copy2 "p1".data (targetPath "a".data "s".data "a.jpg".data)],
     [ConsoleItem.fileLine false (targetPath "a".data "s".data "a.jpg".data) "p1".data
        Method.exact_filename,
      ConsoleItem.summaryBlock 1
        [(targetPath "a".data "s".data "a.jpg".data, "p1".data, Method.exact_filename)]
        []]⟩
    (by decide) (by decide)

/-- C8 (amended): every matched target produces exactly one per-file console
line (a DRY or REPL notice carrying the chosen method), in replacement
order, and these lines all precede the single final summary block; an
unmatched target produces no per-file line and appears only inside the
summary. -/
theorem one_line_per_replacement (refWalk : List RefFile) (listing : List RootEntry)
    (cfg : Config) (websitePath assetsPath ts : Str) (r : RunResult)
    (hr : runScript refWalk listing cfg websitePath assetsPath ts = Except.ok r) :
    r.console =
      (r.replacements.map fun x => ConsoleItem.fileLine cfg.DRY_RUN x.1 x.2.1 x.2.2) ++
        [ConsoleItem.summaryBlock (websiteFilesOf refWalk).length r.replacements
           r.unmatched] := by
  obtain ⟨-, h1⟩ := runScript_ok _ _ _ _ _ _ _ hr
  subst h1
  dsimp only
  rw [perFileOf_eq_map]

theorem one_line_per_replacement_witness :
    ([ConsoleItem.fileLine false (targetPath "a".data "s".data "a.jpg".data) "p1".data
        Method.exact_filename,
      ConsoleItem.summaryBlock 1
        [(targetPath "a".data "s".data "a.jpg".data, "p1".data, Method.exact_filename)]
        []] : List ConsoleItem) =
      (([(targetPath "a".data "s".data "a.jpg".data, "p1".data, Method.exact_filename)] :
          List (Str × Str × Method)).map fun x =>
          ConsoleItem.fileLine false x.1 x.2.1 x.2.2) ++
        [ConsoleItem.summaryBlock 1
           [(targetPath "a".data "s".data "a.jpg".data, "p1".data, Method.exact_filename)]
           []] :=
  one_line_per_replacement [⟨"p1".data, "a.jpg".data⟩]
    [RootEntry.dir "s".data [("a.jpg".data, true)]] ⟨false, true, ⟨78, 100⟩⟩ "w".data
    "a".data "t".data
    ⟨[(targetPath "a".data "s".data "a.jpg".data, "p1".data, Method.exact_filename)], [],
     [FsEvent.makedirs (backupDir (backupRootOf "a".data "t".data) "s".data),
      FsEvent.copy2 (targetPath "a".data "s".data "a.jpg".data)
        (backupPath (backupRootOf "a".data "t".data) "s".data "a.jpg".data),
      FsEvent.copy2 "p1".data (targetPath "a".data "s".data "a.jpg".data)],
     [ConsoleItem.fileLine false (targetPath "a".data "s".data "a.jpg".data) "p1".data
        Method.exact_filename,
      ConsoleItem.summaryBlock 1
        [(targetPath "a".data "s".data "a.jpg".data, "p1".data, Method.exact_filename)]
        []]⟩
    (by decide)

/-- C8 counterexample: a processed target that all four tiers fail to match
is recorded as unmatched but produces no per-file console line at all: the
console holds only the summary block. This contradicts the claim that every
processed target, matched or unmatched, gets exactly one per-file line. -/
theorem unmatched_no_line_counterexample :
    runScript [⟨"p1".data, "zzz.jpg".data⟩]
        [RootEntry.dir "s".data [("qqq.png".data, true)]]
        ⟨false, true, ⟨78, 100⟩⟩ "w".data "a".data "t".data =
      Except.ok
        ⟨[], [targetPath "a".data "s".data "qqq.png".data], [],
         [ConsoleItem.summaryBlock 1 [] [targetPath "a".data "s".data "qqq.png".data]]⟩ := by
  decide

/-- C10: entries of the target tree that are not image files directly inside
a first-level subfolder — non-directory entries at the root, non-file
entries inside subfolders, and subfolder files without an image extension —
are never matched, backed up, overwritten, or recorded in either report
list: any path that differs from every eligible target's path, backup path
and backup directory never appears as a replacement target, an unmatched
entry, a copy destination, or a created directory. -/
theorem non_eligible_untouched (refWalk : List RefFile) (listing : List RootEntry)
    (cfg : Config) (websitePath assetsPath ts : Str) (r : RunResult) (p : Str)
    (hr : runScript refWalk listing cfg websitePath assetsPath ts = Except.ok r)
    (hp : ∀ q ∈ eligiblePairs listing,
      p ≠ targetPath assetsPath q.1 q.2 ∧
      p ≠ backupPath (backupRootOf assetsPath ts) q.1 q.2 ∧
      p ≠ backupDir (backupRootOf assetsPath ts) q.1) :
    (∀ s m, (p, s, m) ∉ r.replacements) ∧ p ∉ r.unmatched ∧
      ∀ e ∈ r.events, writeDest e ≠ some p ∧ madeDir e ≠ some p := by
  obtain ⟨-, h1⟩ := runScript_ok _ _ _ _ _ _ _ hr
  subst h1
  dsimp only
  refine ⟨?_, ?_, ?_⟩
  · intro s m hmem
    obtain ⟨st, hst, pr, hres, heq⟩ := mem_replacements _ _ _ hmem
    have helig := runSteps_pair _ _ _ _ hst
    have hpq := hp _ helig
    exact hpq.1 (congrArg (fun x => x.1) heq)
  · intro hmem
    obtain ⟨st, hst, hres, heq⟩ := mem_unmatched _ _ _ hmem
    have helig := runSteps_pair _ _ _ _ hst
    exact (hp _ helig).1 heq
  · intro e he
    rcases (mem_concatMap _ _ _).mp he with ⟨st, hst, hin⟩
    obtain ⟨pr, hres, hshape⟩ := mem_stepEvents _ _ _ _ _ hin
    have helig := runSteps_pair _ _ _ _ hst
    have hpq := hp _ helig
    rcases hshape with rfl | rfl | rfl
    · exact ⟨fun h => Option.noConfusion h,
        fun h => hpq.2.2 (Option.some.inj h).symm⟩
    · exact ⟨fun h => hpq.2.1 (Option.some.inj h).symm,
        fun h => Option.noConfusion h⟩
    · exact ⟨fun h => hpq.1 (Option.some.inj h).symm,
        fun h => Option.noConfusion h⟩

theorem non_eligible_untouched_witness :
    (∀ s m, (targetPath "a".data "s".data "notes.txt".data, s, m) ∉
      ([(targetPath "a".data "s".data "a.jpg".data, "p1".data, Method.exact_filename)] :
        List (Str × Str × Method))) ∧
    targetPath "a".data "s".data "notes.txt".data ∉ ([] : List Str) ∧
    ∀ e ∈ ([FsEvent.makedirs (backupDir (backupRootOf "a".data "t".data) "s".data),
        FsEvent.copy2 (targetPath "a".data "s".data "a.jpg".data)
          (backupPath (backupRootOf "a".data "t".data) "s".data "a.jpg".data),
        FsEvent.copy2 "p1".data (targetPath "a".data "s".data "a.jpg".data)] :
        List FsEvent),
      writeDest e ≠ some (targetPath "a".data "s".data "notes.txt".data) ∧
      madeDir e ≠ some (targetPath "a".data "s".data "notes.txt".data) :=
  non_eligible_untouched [⟨"p1".data, "a.jpg".data⟩]
    [RootEntry.plain "root.png".data,
     RootEntry.dir "s".data
       [("a.jpg".data, true), ("notes.txt".data, true), ("sub2".data, false)]]
    ⟨false, true, ⟨78, 100⟩⟩ "w".data "a".data "t".data
    ⟨[(targetPath "a".data "s".data "a.jpg".data, "p1".data, Method.exact_filename)], [],
     [FsEvent.makedirs (backupDir (backupRootOf "a".data "t".data) "s".data),
      FsEvent.copy2 (targetPath "a".data "s".data "a.jpg".data)
        (backupPath (backupRootOf "a".data "t".data) "s".data "a.jpg".data),
      FsEvent.copy2 "p1".data (targetPath "a".data "s".data "a.jpg".data)],
     [ConsoleItem.fileLine false (targetPath "a".data "s".data "a.jpg".data) "p1".data
        Method.exact_filename,
      ConsoleItem.summaryBlock 1
        [(targetPath "a".data "s".data "a.jpg".data, "p1".data, Method.exact_filename)]
        []]⟩
    (targetPath "a".data "s".data "notes.txt".data)
    (by decide) (by decide)

/-- C6: the name normalizer lowercases and trims, collapses runs of
underscores and whitespace to a single hyphen, strips every character that
is not a lowercase letter, digit or hyphen, and collapses repeated hyphens;
hence the stem of "My Photo_01.JPG" normalizes to "my-photo-01",
"a--b__c" normalizes to "a-b-c", and normalize_stem is idempotent on every
string. -/
theorem normalize_examples_and_idempotent :
    normalize_stem (stemOf "My Photo_01.JPG".data) = "my-photo-01".data ∧
    normalize_stem "a--b__c".data = "a-b-c".data ∧
    ∀ x : Str, normalize_stem (normalize_stem x) = normalize_stem x :=
  ⟨by decide, by decide, normalize_stem_idem⟩

theorem stem_buckets_nonempty_witness :
    (("a".data, ["p1".data]) : Str × List Str).2 ≠ [] ∧
      (("a".data, ["p1".data]) : Str × List Str).2.head? =
        some ((("a".data, ["p1".data]) : Str × List Str).2.headD []) :=
  stem_buckets_nonempty [⟨"p1".data, "a.jpg".data⟩] ("a".data, ["p1".data]) (by decide)

